import Mathlib

/-!
Network.

A shallow embedding of `src/network.cpp`: an undirected graph whose nodes carry a
real value and whose links are kept in a multimap, mirrored in both directions.

* `size_t` and `unsigned int` quantities are natural numbers; the two places where
  the source can wrap (`values.size()-1` and the assignment of a `size_t` to an
  `unsigned int`) carry an explicit `%`.
* `double` node values are exact rationals.
* The random source is given by the outcomes of its calls.
-/

/-- Modelled from the spec: the class declaration (`network.h`) is not part of the
sources. `values` is the `std::vector<double>` of node values, indexed by node.
`links` is the `std::multimap<size_t, size_t>` of directed entries, given by its
iteration sequence (ascending keys, entries of equal key in insertion order). -/
structure Network where
  values : List Rat
  links : List (Nat × Nat)
deriving DecidableEq, Repr

/-- Modelled from the spec: the random source (`random.h`) is not part of the sources.
`poisson mean k` is the value returned by the `k`-th call (counted from 0) of
`RNG.poisson(mean)` during one run of `random_connect`; `uniform_double` lists the
successive values of `RNG.uniform_double(0, size)` after their conversion to
`size_t` at the call `add_link(node, noeu)`. A run that needs more uniform draws
than are listed has not returned within these draws. -/
structure RandomNumbers where
  poisson : Rat → Nat → Nat
  uniform_double : List Nat

/-- Number of values of a `size_t`. -/
def SIZE_T_RANGE : Nat := 2 ^ 64

/-- Number of values of an `unsigned int`. -/
def UINT_RANGE : Nat := 2 ^ 32

/-- Modelled from the spec: `std::multimap::insert`, whose container is declared in the
absent header. The new entry goes after every entry whose key is not greater than
its own key (the upper bound of the equal range). -/
def multimap_insert (p : Nat × Nat) : List (Nat × Nat) → List (Nat × Nat)
  | [] => [p]
  | q :: rest => if p.1 < q.1 then p :: q :: rest else q :: multimap_insert p rest

namespace Network

/-- The network a default-constructed object holds. -/
def empty : Network := { values := [], links := [] }

/-- Source `Network::size`. -/
def size (net : Network) : Nat := net.values.length

/-- Source `Network::neighbors`: walk `links` in iteration order and push the second
component of every entry whose first component is `n`. -/
def neighbors (net : Network) (n : Nat) : List Nat :=
  net.links.foldl (fun voisins it => if it.1 = n then voisins ++ [it.2] else voisins) []

/-- Source `Network::degree`: `links.count(n)`, the number of entries of key `n`. -/
def degree (net : Network) (n : Nat) : Nat :=
  net.links.countP (fun it => decide (it.1 = n))

/-- Source `Network::value`: `values[n]`, with no result when `n` is out of range. -/
def value (net : Network) (n : Nat) : Option Rat := net.values[n]?

/-- Source `Network::resize`: clear `values`, then push `n` samples of a fresh random
source, `normal i` being its `i`-th sample. -/
def resize (net : Network) (n : Nat) (normal : Nat → Rat) : Network :=
  { net with values := (List.range n).foldl (fun vals i => vals ++ [normal i]) [] }

/-- Source `Network::set_values`: replace `values`, return the new size. -/
def set_values (net : Network) (valeurs : List Rat) : Nat × Network :=
  (valeurs.length, { net with values := valeurs })

/-- Source `Network::sorted_values`: copy, sort ascending, reverse. -/
def sorted_values (net : Network) : List Rat :=
  (net.values.insertionSort (fun x y => x ≤ y)).reverse

/-- Source `Network::add_link`: the returned flag and the network afterwards. -/
def add_link (net : Network) (a b : Nat) : Bool × Network :=
  if (a < net.values.length ∧ b < net.values.length) ∧ a ≠ b then
    if (net.neighbors a).any (fun voisin => voisin == b) then (false, net)
    else
      (true, { net with links := multimap_insert (b, a) (multimap_insert (a, b) net.links) })
  else (false, net)

/-- Source `Network::random_connect`, lines 42-44: the draw is stored in an
`unsigned int`, the sub-zero test is kept, and the draw is capped by
`values.size()-1` computed in `size_t`. -/
def clamp_degree (size draw : Nat) : Nat :=
  let nb_nodes_linked := draw % UINT_RANGE
  let nb_nodes_linked := if nb_nodes_linked < 0 then 0 else nb_nodes_linked
  let size_minus_one := (size + SIZE_T_RANGE - 1) % SIZE_T_RANGE
  if nb_nodes_linked > size_minus_one then size_minus_one % UINT_RANGE else nb_nodes_linked

/-- Source `Network::random_connect`, lines 46-49: draw a candidate and call
`add_link(node, candidate)` until it succeeds. Returns the network after the
successful call and the draws left, or `none` when the draws run out first. -/
def retry_link (net : Network) (node : Nat) : List Nat → Option (Network × List Nat)
  | [] => none
  | noeu :: rest =>
    match net.add_link node noeu with
    | (true, net1) => some (net1, rest)
    | (false, net1) => retry_link net1 node rest

/-- Source `Network::random_connect`, lines 45-50: `nb` rounds of the retry loop. -/
def link_loop (net : Network) (node : Nat) : Nat → List Nat → Option (Network × List Nat)
  | 0, us => some (net, us)
  | nb + 1, us =>
    match retry_link net node us with
    | none => none
    | some (net1, us1) => link_loop net1 node nb us1

/-- Source `Network::random_connect`, lines 41-51: the loop over the nodes, entered at
`node` with `remaining = values.size() - node` iterations to go (`add_link` never
changes `values`, so the bound is fixed during the loop). -/
def node_loop (mean_deg : Rat) (poisson : Rat → Nat → Nat) (net : Network) (node : Nat) :
    Nat → List Nat → Option (Network × List Nat)
  | 0, us => some (net, us)
  | remaining + 1, us =>
    match link_loop net node (clamp_degree net.values.length (poisson mean_deg node)) us with
    | none => none
    | some (net1, us1) => node_loop mean_deg poisson net1 (node + 1) remaining us1

/-- Source `Network::random_connect`: clear the links, run the node loop, return
`links.size()/2` together with the resulting network. -/
def random_connect (net : Network) (mean_deg : Rat) (RNG : RandomNumbers) :
    Option (Nat × Network) :=
  match node_loop mean_deg RNG.poisson { net with links := [] } 0 net.values.length
      RNG.uniform_double with
  | none => none
  | some (net1, _) => some (net1.links.length / 2, net1)

/-- States reachable from the empty network by the public mutating operations. -/
inductive Reachable : Network → Prop
  | start : Reachable empty
  | resize {net : Network} (n : Nat) (normal : Nat → Rat) :
      Reachable net → Reachable (net.resize n normal)
  | set_values {net : Network} (valeurs : List Rat) :
      Reachable net → Reachable (net.set_values valeurs).2
  | add_link {net : Network} (a b : Nat) :
      Reachable net → Reachable (net.add_link a b).2
  | random_connect {net net1 : Network} (mean_deg : Rat) (RNG : RandomNumbers) (count : Nat) :
      Reachable net → net.random_connect mean_deg RNG = some (count, net1) → Reachable net1

/-! ## Properties of the link relation -/

/-- Number of entries `(a, b)` in `links`. -/
def link_count (net : Network) (a b : Nat) : Nat :=
  net.links.countP (fun it => decide (it = (a, b)))

/-- Every entry has as many copies as its mirror image. -/
def Symmetric (net : Network) : Prop :=
  ∀ a b : Nat, net.link_count a b = net.link_count b a

/-- No ordered pair is stored twice. -/
def NoDuplicate (net : Network) : Prop :=
  ∀ a b : Nat, net.link_count a b ≤ 1

/-- Both endpoints of every entry are node indices. -/
def InRange (net : Network) : Prop :=
  ∀ p ∈ net.links, p.1 < net.size ∧ p.2 < net.size

/-! ## Sample states -/

/-- A four-node network on which `random_connect` has run after two manual links. -/
def sample_start : Network :=
  (((empty.resize 4 (fun _ => 0)).add_link 0 1).2.add_link 2 3).2

/-- A random source: nodes 0 and 1 draw two links each, the others none. -/
def sample_rng : RandomNumbers :=
  { poisson := fun _ k => if k < 2 then 2 else 0
    uniform_double := [0, 1, 2, 3, 0, 0, 1, 2, 4] }

/-- The network `random_connect` leaves on `sample_start` with `sample_rng`. -/
def sample_net : Network :=
  { values := [0, 0, 0, 0]
    links := [(0, 1), (0, 2), (1, 0), (1, 3), (1, 2), (2, 0), (2, 1), (3, 1)] }

/-- Two nodes, no link. -/
def pair_cleared : Network := { values := [0, 0], links := [] }

/-- Two nodes linked to each other. -/
def pair_linked : Network := { values := [0, 0], links := [(0, 1), (1, 0)] }

/-- No entry links a node to itself. -/
def NoSelfLink (net : Network) : Prop :=
  ∀ p ∈ net.links, p.1 ≠ p.2

/-- States reachable from the empty network by the public mutating operations when
`resize` and `set_values` never leave fewer nodes than there were. -/
inductive ReachableGrowing : Network → Prop
  | start : ReachableGrowing empty
  | resize {net : Network} (n : Nat) (normal : Nat → Rat) :
      ReachableGrowing net → net.size ≤ n → ReachableGrowing (net.resize n normal)
  | set_values {net : Network} (valeurs : List Rat) :
      ReachableGrowing net → net.size ≤ valeurs.length →
      ReachableGrowing (net.set_values valeurs).2
  | add_link {net : Network} (a b : Nat) :
      ReachableGrowing net → ReachableGrowing (net.add_link a b).2
  | random_connect {net net1 : Network} (mean_deg : Rat) (RNG : RandomNumbers) (count : Nat) :
      ReachableGrowing net → net.random_connect mean_deg RNG = some (count, net1) →
      ReachableGrowing net1

/-- States built from empty links by calls of `add_link` on a fixed vector of values:
the states the loops of `random_connect` pass through. -/
inductive LinkBuilt (valeurs : List Rat) : Network → Prop
  | cleared : LinkBuilt valeurs { values := valeurs, links := [] }
  | add_link {net : Network} (a b : Nat) :
      LinkBuilt valeurs net → LinkBuilt valeurs (net.add_link a b).2

/-- The state after `resize(2)`, `add_link(0,1)`, `set_values([])`: no node is left and
the two entries of the link are still stored. -/
def stale_net : Network :=
  (((empty.resize 2 (fun _ => 0)).add_link 0 1).2.set_values []).2

/-- The links form a simple undirected graph on the nodes: mirrored entries, no pair
stored twice, no self-link, endpoints in range. -/
def Simple (net : Network) : Prop :=
  net.Symmetric ∧ net.NoDuplicate ∧ net.NoSelfLink ∧ net.InRange

/-- A four-node network built by three calls of `add_link`: node 0 is linked to every
other node, node 1 only to node 0. -/
def star_net : Network :=
  ((((Network.mk [0, 0, 0, 0] []).add_link 0 1).2.add_link 0 2).2.add_link 0 3).2

/-- A three-node network with a previous link between nodes 1 and 2. -/
def clamp_start : Network := { values := [0, 0, 0], links := [(1, 2), (2, 1)] }

/-- A random source whose draw for node 0 exceeds `size()-1`: node 0 draws 7, the others
draw 0. -/
def clamp_rng : RandomNumbers :=
  { poisson := fun _ k => if k = 0 then 7 else 0
    uniform_double := [1, 2] }

/-- The network `random_connect` leaves on `clamp_start` with `clamp_rng`: node 0 is
linked to the two other nodes. -/
def clamp_net : Network :=
  { values := [0, 0, 0], links := [(0, 1), (0, 2), (1, 0), (2, 0)] }

/-! ## Links as a multiset of entries -/

theorem multimap_insert_perm (p : Nat × Nat) (l : List (Nat × Nat)) :
    (multimap_insert p l).Perm (p :: l) := by
  induction l with
  | nil => exact List.Perm.refl _
  | cons q rest ih =>
    unfold multimap_insert
    split
    · exact List.Perm.refl _
    · exact (List.Perm.cons q ih).trans (List.Perm.swap p q rest)

theorem neighbors_foldl (n : Nat) (l : List (Nat × Nat)) (acc : List Nat) :
    l.foldl (fun voisins it => if it.1 = n then voisins ++ [it.2] else voisins) acc
      = acc ++ (l.filter (fun it => decide (it.1 = n))).map Prod.snd := by
  induction l generalizing acc with
  | nil => simp
  | cons q rest ih =>
    rw [List.foldl_cons, ih]
    by_cases h : q.1 = n <;> simp [h, List.filter_cons]

theorem neighbors_eq (net : Network) (n : Nat) :
    net.neighbors n = (net.links.filter (fun it => decide (it.1 = n))).map Prod.snd := by
  unfold neighbors
  rw [neighbors_foldl]
  simp

theorem mem_neighbors (net : Network) (a b : Nat) :
    b ∈ net.neighbors a ↔ (a, b) ∈ net.links := by
  rw [neighbors_eq]
  simp only [List.mem_map, List.mem_filter, decide_eq_true_eq]
  constructor
  · rintro ⟨⟨x, y⟩, ⟨hmem, hx⟩, hy⟩
    simp only at hx hy
    subst hx; subst hy
    exact hmem
  · intro h
    exact ⟨(a, b), ⟨h, rfl⟩, rfl⟩

theorem degree_eq_length (net : Network) (n : Nat) :
    net.degree n = (net.neighbors n).length := by
  rw [neighbors_eq, List.length_map, degree, List.countP_eq_length_filter]

/-! ## add_link -/

theorem add_link_true_iff (net : Network) (a b : Nat) :
    (net.add_link a b).1 = true ↔
      (a < net.size ∧ b < net.size ∧ a ≠ b ∧ b ∉ net.neighbors a) := by
  unfold add_link size
  by_cases h1 : (a < net.values.length ∧ b < net.values.length) ∧ a ≠ b
  · by_cases h2 : (net.neighbors a).any (fun voisin => voisin == b) = true
    · have h3 : b ∈ net.neighbors a := by
        simpa [List.any_eq_true] using h2
      simp [h1, h2, h3]
    · have h3 : b ∉ net.neighbors a := by
        simpa [List.any_eq_true] using h2
      simp only [h1, h2, if_true]
      simp [h1.1.1, h1.1.2, h1.2, h3]
  · simp only [h1, if_false]
    constructor
    · intro h; exact absurd h (by decide)
    · rintro ⟨ha, hb, hab, _⟩
      exact absurd ⟨⟨ha, hb⟩, hab⟩ h1

theorem add_link_true_links (net : Network) (a b : Nat) (h : (net.add_link a b).1 = true) :
    (net.add_link a b).2
      = { net with links := multimap_insert (b, a) (multimap_insert (a, b) net.links) } := by
  unfold add_link at h ⊢
  by_cases h1 : (a < net.values.length ∧ b < net.values.length) ∧ a ≠ b
  · by_cases h2 : (net.neighbors a).any (fun voisin => voisin == b) = true
    · simp [h1, h2] at h
    · simp [h1, h2]
  · simp [h1] at h

theorem add_link_true_perm (net : Network) (a b : Nat) (h : (net.add_link a b).1 = true) :
    (net.add_link a b).2.links.Perm ((a, b) :: (b, a) :: net.links) := by
  rw [add_link_true_links net a b h]
  exact (multimap_insert_perm _ _).trans
    (((multimap_insert_perm (a, b) net.links).cons (b, a)).trans (List.Perm.swap _ _ _))

theorem add_link_false_eq (net : Network) (a b : Nat) (h : (net.add_link a b).1 = false) :
    (net.add_link a b).2 = net := by
  unfold add_link at h ⊢
  by_cases h1 : (a < net.values.length ∧ b < net.values.length) ∧ a ≠ b
  · by_cases h2 : (net.neighbors a).any (fun voisin => voisin == b) = true
    · simp [h1, h2]
    · simp [h1, h2] at h
  · simp [h1]

theorem add_link_values (net : Network) (a b : Nat) :
    (net.add_link a b).2.values = net.values := by
  cases h : (net.add_link a b).1
  · rw [add_link_false_eq net a b h]
  · rw [add_link_true_links net a b h]

/-! ## Invariants of the link relation -/

theorem link_count_pos_iff (net : Network) (a b : Nat) :
    0 < net.link_count a b ↔ (a, b) ∈ net.links := by
  unfold link_count
  rw [List.countP_pos_iff]
  simp

theorem link_count_eq_count (net : Network) (a b : Nat) :
    net.link_count a b = (net.neighbors a).countP (fun v => decide (v = b)) := by
  rw [neighbors_eq, link_count, List.countP_map, List.countP_filter]
  apply List.countP_congr
  rintro ⟨x, y⟩ _
  simp [and_comm]

theorem count_add_link_true (net : Network) (a b : Nat) (h : (net.add_link a b).1 = true)
    (x y : Nat) :
    (net.add_link a b).2.link_count x y
      = net.link_count x y + (if (a, b) = (x, y) then 1 else 0)
          + (if (b, a) = (x, y) then 1 else 0) := by
  unfold link_count
  rw [(add_link_true_perm net a b h).countP_eq, List.countP_cons, List.countP_cons]
  simp only [decide_eq_true_eq]
  omega

theorem symmetric_add_link (net : Network) (a b : Nat) (hs : net.Symmetric) :
    (net.add_link a b).2.Symmetric := by
  cases h : (net.add_link a b).1
  · rw [add_link_false_eq net a b h]; exact hs
  · intro x y
    rw [count_add_link_true net a b h, count_add_link_true net a b h, hs x y]
    simp only [Prod.mk.injEq]
    by_cases h1 : a = x ∧ b = y <;> by_cases h2 : b = x ∧ a = y <;>
      simp [h1, h2, and_comm] <;> omega

theorem noDuplicate_add_link (net : Network) (a b : Nat) (hs : net.Symmetric)
    (hd : net.NoDuplicate) : (net.add_link a b).2.NoDuplicate := by
  cases h : (net.add_link a b).1
  · rw [add_link_false_eq net a b h]; exact hd
  · obtain ⟨_, _, hab, hnb⟩ := (add_link_true_iff net a b).1 h
    have h0 : net.link_count a b = 0 := by
      rw [mem_neighbors, ← link_count_pos_iff] at hnb
      omega
    have h0r : net.link_count b a = 0 := by rw [← hs a b]; exact h0
    intro x y
    rw [count_add_link_true net a b h]
    have hxy := hd x y
    simp only [Prod.mk.injEq]
    by_cases h1 : a = x ∧ b = y
    · obtain ⟨rfl, rfl⟩ := h1
      have h2 : ¬ (b = a ∧ a = b) := fun h => hab h.2
      simp [h2, h0]
    · by_cases h2 : b = x ∧ a = y
      · obtain ⟨rfl, rfl⟩ := h2
        simp [h1, h0r]
      · simp [h1, h2, hxy]

theorem inRange_add_link (net : Network) (a b : Nat) (hr : net.InRange) :
    (net.add_link a b).2.InRange := by
  cases h : (net.add_link a b).1
  · rw [add_link_false_eq net a b h]; exact hr
  · obtain ⟨ha, hb, _, _⟩ := (add_link_true_iff net a b).1 h
    intro p hp
    have hsize : (net.add_link a b).2.size = net.size := by
      unfold size; rw [add_link_values]
    rw [hsize]
    have hp2 := (add_link_true_perm net a b h).mem_iff.1 hp
    simp only [List.mem_cons] at hp2
    rcases hp2 with rfl | rfl | hp3
    · exact ⟨ha, hb⟩
    · exact ⟨hb, ha⟩
    · exact hr p hp3

theorem even_length_add_link (net : Network) (a b : Nat) (he : net.links.length % 2 = 0) :
    (net.add_link a b).2.links.length % 2 = 0 := by
  cases h : (net.add_link a b).1
  · rw [add_link_false_eq net a b h]; exact he
  · rw [(add_link_true_perm net a b h).length_eq]
    simp only [List.length_cons]
    omega

/-! ## The loops of random_connect -/

theorem retry_link_cons_false (net : Network) (node noeu : Nat) (rest : List Nat)
    (h : (net.add_link node noeu).1 = false) :
    retry_link net node (noeu :: rest) = retry_link net node rest := by
  have h2 := add_link_false_eq net node noeu h
  rw [retry_link]
  split
  · next net1 heq => rw [heq] at h; simp at h
  · next net1 heq => rw [heq] at h2; simp only at h2; rw [h2]

theorem retry_link_cons_true (net : Network) (node noeu : Nat) (rest : List Nat)
    (h : (net.add_link node noeu).1 = true) :
    retry_link net node (noeu :: rest) = some ((net.add_link node noeu).2, rest) := by
  rw [retry_link]
  split
  · next net1 heq => rw [heq]
  · next net1 heq => rw [heq] at h; simp at h

/-- Whatever `add_link` preserves, the retry loop preserves. -/
theorem retry_link_preserves (P : Network → Prop)
    (hP : ∀ (net : Network) (a b : Nat), P net → P (net.add_link a b).2)
    (node : Nat) (us : List Nat) (net : Network) (res : Network × List Nat)
    (h0 : P net) (h : retry_link net node us = some res) : P res.1 := by
  induction us with
  | nil => simp [retry_link] at h
  | cons noeu rest ih =>
    cases hb : (net.add_link node noeu).1
    · rw [retry_link_cons_false net node noeu rest hb] at h
      exact ih h
    · rw [retry_link_cons_true net node noeu rest hb] at h
      cases h
      exact hP net node noeu h0

theorem link_loop_preserves (P : Network → Prop)
    (hP : ∀ (net : Network) (a b : Nat), P net → P (net.add_link a b).2)
    (node : Nat) (nb : Nat) (us : List Nat) (net : Network) (res : Network × List Nat)
    (h0 : P net) (h : link_loop net node nb us = some res) : P res.1 := by
  induction nb generalizing net us with
  | zero =>
    simp only [link_loop] at h
    cases h
    exact h0
  | succ nb ih =>
    rw [link_loop] at h
    cases hr : retry_link net node us with
    | none => rw [hr] at h; simp at h
    | some r =>
      rw [hr] at h
      exact ih r.2 r.1 (retry_link_preserves P hP node us net r h0 hr) h

theorem node_loop_preserves (P : Network → Prop)
    (hP : ∀ (net : Network) (a b : Nat), P net → P (net.add_link a b).2)
    (mean_deg : Rat) (poisson : Rat → Nat → Nat)
    (remaining : Nat) (node : Nat) (us : List Nat) (net : Network) (res : Network × List Nat)
    (h0 : P net) (h : node_loop mean_deg poisson net node remaining us = some res) :
    P res.1 := by
  induction remaining generalizing net node us with
  | zero =>
    simp only [node_loop] at h
    cases h
    exact h0
  | succ remaining ih =>
    rw [node_loop] at h
    cases hr : link_loop net node (clamp_degree net.values.length (poisson mean_deg node)) us with
    | none => rw [hr] at h; simp at h
    | some r =>
      rw [hr] at h
      exact ih (node + 1) r.2 r.1 (link_loop_preserves P hP node _ us net r h0 hr) h

/-- Whatever holds of the cleared network and is preserved by `add_link` holds of the
network `random_connect` leaves, and the returned count is half its number of entries. -/
theorem random_connect_preserves (P : Network → Prop)
    (hP : ∀ (net : Network) (a b : Nat), P net → P (net.add_link a b).2)
    (net net1 : Network) (mean_deg : Rat) (RNG : RandomNumbers) (count : Nat)
    (h0 : P { net with links := [] })
    (h : net.random_connect mean_deg RNG = some (count, net1)) :
    P net1 ∧ count = net1.links.length / 2 := by
  unfold random_connect at h
  cases hr : node_loop mean_deg RNG.poisson { net with links := [] } 0 net.values.length
      RNG.uniform_double with
  | none => rw [hr] at h; simp at h
  | some r =>
    rw [hr] at h
    simp only [Option.some.injEq, Prod.mk.injEq] at h
    obtain ⟨h1, h2⟩ := h
    subst h2
    exact ⟨node_loop_preserves P hP mean_deg RNG.poisson _ 0 _ _ r h0 hr, h1.symm⟩

/-! ## Reachable states -/

theorem reachable_symmetric_noDuplicate (net : Network) (h : Reachable net) :
    net.Symmetric ∧ net.NoDuplicate := by
  induction h with
  | start => exact ⟨fun _ _ => rfl, fun _ _ => Nat.zero_le _⟩
  | resize n normal _ ih => exact ih
  | set_values valeurs _ ih => exact ih
  | add_link a b _ ih =>
    exact ⟨symmetric_add_link _ a b ih.1, noDuplicate_add_link _ a b ih.1 ih.2⟩
  | random_connect mean_deg RNG count _ hrun _ =>
    exact (random_connect_preserves (fun n => n.Symmetric ∧ n.NoDuplicate)
      (fun n a b hn => ⟨symmetric_add_link n a b hn.1, noDuplicate_add_link n a b hn.1 hn.2⟩)
      _ _ mean_deg RNG count ⟨fun _ _ => rfl, fun _ _ => Nat.zero_le _⟩ hrun).1

theorem sample_run : sample_start.random_connect 1 sample_rng = some (4, sample_net) := by
  decide

theorem sample_reachable : Reachable sample_net :=
  Reachable.random_connect 1 sample_rng 4
    (Reachable.add_link 2 3 (Reachable.add_link 0 1 (Reachable.resize 4 (fun _ => 0)
      Reachable.start)))
    sample_run

/-! ## Degree sums -/

theorem countP_key_lt_succ (l : List (Nat × Nat)) (s : Nat) :
    l.countP (fun it => decide (it.1 < s + 1))
      = l.countP (fun it => decide (it.1 < s)) + l.countP (fun it => decide (it.1 = s)) := by
  induction l with
  | nil => rfl
  | cons q rest ih =>
    rw [List.countP_cons, List.countP_cons, List.countP_cons, ih]
    by_cases h1 : q.1 < s
    · have h2 : q.1 < s + 1 := by omega
      have h3 : ¬ q.1 = s := by omega
      simp [h1, h2, h3]
      omega
    · by_cases h3 : q.1 = s
      · have h2 : q.1 < s + 1 := by omega
        simp [h1, h2, h3]
        omega
      · have h2 : ¬ q.1 < s + 1 := by omega
        simp [h1, h2, h3]

theorem sum_degree_range (net : Network) (s : Nat) :
    ((List.range s).map net.degree).sum = net.links.countP (fun it => decide (it.1 < s)) := by
  induction s with
  | zero => simp
  | succ s ih =>
    rw [List.range_succ, List.map_append, List.sum_append, ih, countP_key_lt_succ]
    simp [degree]

theorem sum_degree_of_inRange (net : Network) (hr : net.InRange) :
    ((List.range net.size).map net.degree).sum = net.links.length := by
  rw [sum_degree_range, List.countP_eq_length]
  intro p hp
  simpa using (hr p hp).1

/-! ## A run of random_connect that cannot return -/

theorem retry_link_none_of_all_fail (net : Network) (node : Nat)
    (hfail : ∀ c : Nat, (net.add_link node c).1 = false) (us : List Nat) :
    retry_link net node us = none := by
  induction us with
  | nil => rfl
  | cons noeu rest ih => rw [retry_link_cons_false net node noeu rest (hfail noeu)]; exact ih

theorem random_connect_none_of_node_loop (net : Network) (mean_deg : Rat) (RNG : RandomNumbers)
    (h : node_loop mean_deg RNG.poisson { net with links := [] } 0 net.values.length
      RNG.uniform_double = none) :
    net.random_connect mean_deg RNG = none := by
  unfold random_connect
  rw [h]

theorem pair_linked_all_fail (c : Nat) : (pair_linked.add_link 1 c).1 = false := by
  cases h : (pair_linked.add_link 1 c).1
  · rfl
  · obtain ⟨_, hc, hne, hnb⟩ := (add_link_true_iff pair_linked 1 c).1 h
    have hc2 : c < 2 := hc
    have h0 : c = 0 := by omega
    subst h0
    exact absurd (by decide) hnb

theorem pair_cleared_retry (us : List Nat) :
    retry_link pair_cleared 0 us = none ∨
      ∃ rest, retry_link pair_cleared 0 us = some (pair_linked, rest) := by
  induction us with
  | nil => exact Or.inl rfl
  | cons noeu rest ih =>
    by_cases h1 : noeu = 1
    · subst h1
      exact Or.inr ⟨rest, rfl⟩
    · have hf : (pair_cleared.add_link 0 noeu).1 = false := by
        cases h : (pair_cleared.add_link 0 noeu).1
        · rfl
        · obtain ⟨_, hc, hne, _⟩ := (add_link_true_iff pair_cleared 0 noeu).1 h
          have hc2 : noeu < 2 := hc
          omega
      rw [retry_link_cons_false pair_cleared 0 noeu rest hf]
      exact ih

theorem pair_node_loop_none (mean_deg : Rat) (us : List Nat) :
    node_loop mean_deg (fun _ _ => 1) pair_cleared 0 2 us = none := by
  have hclamp : clamp_degree pair_cleared.values.length 1 = 1 := by decide
  rw [node_loop]
  simp only [hclamp]
  rw [link_loop]
  rcases pair_cleared_retry us with h | ⟨rest, h⟩
  · rw [h]
  · rw [h]
    simp only [link_loop]
    rw [node_loop]
    have hclamp2 : clamp_degree pair_linked.values.length 1 = 1 := by decide
    simp only [hclamp2]
    rw [link_loop, retry_link_none_of_all_fail pair_linked 1 pair_linked_all_fail]

/-! ## The claims -/

/-- C1: `add_link(a, b)` returns true exactly when `a < size()`, `b < size()`, `a != b`
and `b` is not among `neighbors(a)`; when it returns true the new links are the old
links plus one entry `(a, b)` and one entry `(b, a)`, and the values are unchanged. -/
theorem add_link_true_iff_and_inserts (net : Network) (a b : Nat) :
    ((net.add_link a b).1 = true ↔
      (a < net.size ∧ b < net.size ∧ a ≠ b ∧ b ∉ net.neighbors a)) ∧
    ((net.add_link a b).1 = true →
      (net.add_link a b).2.links.Perm ((a, b) :: (b, a) :: net.links) ∧
      (net.add_link a b).2.values = net.values) :=
  ⟨add_link_true_iff net a b, fun h => ⟨add_link_true_perm net a b h, add_link_values net a b⟩⟩

theorem add_link_true_iff_and_inserts_witness :
    (sample_start.add_link 0 2).1 = true ∧
    (sample_start.add_link 0 2).2.links.Perm ((0, 2) :: (2, 0) :: sample_start.links) ∧
    (sample_start.add_link 0 2).2.values = sample_start.values :=
  ⟨by decide, (add_link_true_iff_and_inserts sample_start 0 2).2 (by decide)⟩

/-- C2: whenever `add_link(a, b)` returns false (index out of range, self-link or
duplicate edge) the network is exactly what it was: links and values unchanged. -/
theorem add_link_false_no_mutation (net : Network) (a b : Nat)
    (h : (net.add_link a b).1 = false) :
    (net.add_link a b).2 = net ∧ (net.add_link a b).2.links = net.links ∧
      (net.add_link a b).2.values = net.values := by
  rw [add_link_false_eq net a b h]
  exact ⟨rfl, rfl, rfl⟩

theorem add_link_false_no_mutation_witness :
    ((sample_net.add_link 0 7).1 = false ∧ (sample_net.add_link 1 1).1 = false ∧
      (sample_net.add_link 2 0).1 = false) ∧
    ((sample_net.add_link 2 0).2 = sample_net ∧
      (sample_net.add_link 2 0).2.links = sample_net.links ∧
      (sample_net.add_link 2 0).2.values = sample_net.values) :=
  ⟨by decide, add_link_false_no_mutation sample_net 2 0 (by decide)⟩

/-- C3: if `add_link(a, b)` returns true then afterwards `b` is in `neighbors(a)`, `a` is
in `neighbors(b)`, and `degree(a)` and `degree(b)` are each one more than before. -/
theorem add_link_true_neighbors_degree (net : Network) (a b : Nat)
    (h : (net.add_link a b).1 = true) :
    b ∈ (net.add_link a b).2.neighbors a ∧ a ∈ (net.add_link a b).2.neighbors b ∧
    (net.add_link a b).2.degree a = net.degree a + 1 ∧
    (net.add_link a b).2.degree b = net.degree b + 1 := by
  have hperm := add_link_true_perm net a b h
  obtain ⟨_, _, hab, _⟩ := (add_link_true_iff net a b).1 h
  have hba : ¬ b = a := fun e => hab e.symm
  refine ⟨?_, ?_, ?_, ?_⟩
  · rw [mem_neighbors]
    exact hperm.mem_iff.2 (List.mem_cons_self _ _)
  · rw [mem_neighbors]
    exact hperm.mem_iff.2 (List.mem_cons_of_mem _ (List.mem_cons_self _ _))
  · unfold degree
    rw [hperm.countP_eq, List.countP_cons, List.countP_cons]
    simp [hba]
  · unfold degree
    rw [hperm.countP_eq, List.countP_cons, List.countP_cons]
    simp [hab]

theorem add_link_true_neighbors_degree_witness :
    (sample_start.add_link 0 2).1 = true ∧
    (2 ∈ (sample_start.add_link 0 2).2.neighbors 0 ∧
      0 ∈ (sample_start.add_link 0 2).2.neighbors 2 ∧
      (sample_start.add_link 0 2).2.degree 0 = sample_start.degree 0 + 1 ∧
      (sample_start.add_link 0 2).2.degree 2 = sample_start.degree 2 + 1) :=
  ⟨by decide, add_link_true_neighbors_degree sample_start 0 2 (by decide)⟩

/-- C4: symmetry is an invariant of every state reachable from the empty network by
`resize`, `set_values`, `add_link` and `random_connect`: the number of `(a, b)` entries
of `links` equals the number of `(b, a)` entries, so `b` is in `neighbors(a)` exactly
when `a` is in `neighbors(b)`. -/
theorem reachable_links_symmetric (net : Network) (h : Reachable net) (a b : Nat) :
    net.link_count a b = net.link_count b a ∧
    (b ∈ net.neighbors a ↔ a ∈ net.neighbors b) := by
  have hs := (reachable_symmetric_noDuplicate net h).1
  refine ⟨hs a b, ?_⟩
  rw [mem_neighbors, mem_neighbors, ← link_count_pos_iff, ← link_count_pos_iff, hs a b]

theorem reachable_links_symmetric_witness :
    Reachable sample_net ∧
    (sample_net.link_count 1 3 = sample_net.link_count 3 1 ∧
      (3 ∈ sample_net.neighbors 1 ↔ 1 ∈ sample_net.neighbors 3)) :=
  ⟨sample_reachable, reachable_links_symmetric sample_net sample_reachable 1 3⟩

/-- C5: no duplicate edge is an invariant of every state reachable from the empty
network by `resize`, `set_values`, `add_link` and `random_connect`: each ordered pair
occurs at most once in `links`, so `neighbors(n)` never lists a node twice. -/
theorem reachable_no_duplicate_edges (net : Network) (h : Reachable net) :
    (∀ a b : Nat, net.link_count a b ≤ 1) ∧ (∀ n : Nat, (net.neighbors n).Nodup) := by
  have hd := (reachable_symmetric_noDuplicate net h).2
  refine ⟨hd, fun n => ?_⟩
  rw [List.nodup_iff_count_le_one]
  intro y
  have h1 := hd n y
  rw [link_count_eq_count] at h1
  have h2 : List.count y (net.neighbors n)
      = (net.neighbors n).countP (fun v => decide (v = y)) := by
    unfold List.count
    apply List.countP_congr
    intro v _
    simp
  rw [h2]
  exact h1

theorem reachable_no_duplicate_edges_witness :
    Reachable sample_net ∧
    ((∀ a b : Nat, sample_net.link_count a b ≤ 1) ∧
      (∀ n : Nat, (sample_net.neighbors n).Nodup)) :=
  ⟨sample_reachable, reachable_no_duplicate_edges sample_net sample_reachable⟩

/-- C6: evaluation of the code where the claim fails. On a two-node network with the
Poisson draw 1 for both nodes: the draw of node 1 is within the clamp (`1 <= size()-1`),
the retry loop of node 1 is entered in the state node 0 has left (the two nodes linked),
there no candidate makes `add_link(1, c)` return true, and `random_connect` does not
return whatever the previous links and however many uniform draws are supplied. -/
theorem random_connect_retry_stuck :
    (clamp_degree pair_cleared.size 1 = 1 ∧ 1 ≤ pair_cleared.size - 1) ∧
    (∀ us : List Nat,
      link_loop pair_cleared 0 (clamp_degree pair_cleared.size 1) (1 :: us)
        = some (pair_linked, us)) ∧
    (∀ c : Nat, (pair_linked.add_link 1 c).1 = false) ∧
    (∀ (links : List (Nat × Nat)) (mean_deg : Rat) (us : List Nat),
      random_connect { values := [0, 0], links := links } mean_deg
        { poisson := fun _ _ => 1, uniform_double := us } = none) := by
  have hclamp : clamp_degree pair_cleared.size 1 = 1 := by decide
  refine ⟨by decide, fun us => ?_, pair_linked_all_fail, fun links mean_deg us => ?_⟩
  · rw [hclamp]
    rfl
  · exact random_connect_none_of_node_loop _ mean_deg _ (pair_node_loop_none mean_deg us)

/-- C7: whenever `random_connect(mean_deg)` returns, whatever the previous links and the
random source, the returned count is exactly half the sum of `degree(n)` over the
nodes `n` in `0..size()-1` of the resulting network, and that sum is even. -/
theorem random_connect_count_half_degree_sum (net net1 : Network) (mean_deg : Rat)
    (RNG : RandomNumbers) (count : Nat)
    (h : net.random_connect mean_deg RNG = some (count, net1)) :
    count = ((List.range net1.size).map net1.degree).sum / 2 ∧
    ((List.range net1.size).map net1.degree).sum % 2 = 0 := by
  have hp := random_connect_preserves (fun n => n.InRange ∧ n.links.length % 2 = 0)
    (fun n a b hn => ⟨inRange_add_link n a b hn.1, even_length_add_link n a b hn.2⟩)
    net net1 mean_deg RNG count ⟨fun p hp => absurd hp (List.not_mem_nil p), rfl⟩ h
  rw [sum_degree_of_inRange net1 hp.1.1]
  exact ⟨hp.2, hp.1.2⟩

theorem random_connect_count_half_degree_sum_witness :
    sample_start.random_connect 1 sample_rng = some (4, sample_net) ∧
    (4 = ((List.range sample_net.size).map sample_net.degree).sum / 2 ∧
      ((List.range sample_net.size).map sample_net.degree).sum % 2 = 0) :=
  ⟨sample_run, random_connect_count_half_degree_sum sample_start sample_net 1 sample_rng 4
    sample_run⟩

/-- C8: in every network state, reachable or not, and for every index `n`, in range or
not, `degree(n)` is the length of the list `neighbors(n)` returns. -/
theorem degree_eq_neighbors_length (net : Network) (n : Nat) :
    net.degree n = (net.neighbors n).length :=
  degree_eq_length net n

/-- C9: duplicate detection does not depend on the order of the endpoints. In every
reachable state, after a call `add_link(a, b)`, whatever it returned, a following
`add_link(a, b)` and a following `add_link(b, a)` both return false and leave the
network, hence its links and edge count, unchanged. The scenario of the spec holds for
every sample `resize` draws: `resize(4)`; `add_link(0,1)` is true; `add_link(1,0)` is
false; `add_link(0,5)` is false; `neighbors(0) = [1]`; `neighbors(1) = [0]`. -/
theorem add_link_duplicate_order_independent :
    (∀ (net : Network), Reachable net → ∀ a b : Nat,
      (((net.add_link a b).2.add_link a b).1 = false ∧
        ((net.add_link a b).2.add_link a b).2 = (net.add_link a b).2) ∧
      (((net.add_link a b).2.add_link b a).1 = false ∧
        ((net.add_link a b).2.add_link b a).2 = (net.add_link a b).2)) ∧
    (∀ normal : Nat → Rat,
      ((empty.resize 4 normal).add_link 0 1).1 = true ∧
      (((empty.resize 4 normal).add_link 0 1).2.add_link 1 0).1 = false ∧
      ((((empty.resize 4 normal).add_link 0 1).2.add_link 1 0).2.add_link 0 5).1 = false ∧
      ((((empty.resize 4 normal).add_link 0 1).2.add_link 1 0).2.add_link 0 5).2.neighbors 0
        = [1] ∧
      ((((empty.resize 4 normal).add_link 0 1).2.add_link 1 0).2.add_link 0 5).2.neighbors 1
        = [0]) := by
  refine ⟨fun net hreach a b => ?_, fun normal => ⟨rfl, rfl, rfl, rfl, rfl⟩⟩
  have hs := (reachable_symmetric_noDuplicate _ (Reachable.add_link a b hreach)).1
  have hmem : (a < net.size ∧ b < net.size ∧ a ≠ b) →
      (a, b) ∈ (net.add_link a b).2.links := by
    intro hc
    cases h : (net.add_link a b).1
    · rw [add_link_false_eq net a b h]
      by_contra hn
      rw [← mem_neighbors] at hn
      have ht := (add_link_true_iff net a b).2 ⟨hc.1, hc.2.1, hc.2.2, hn⟩
      rw [h] at ht
      exact absurd ht (by decide)
    · exact (add_link_true_perm net a b h).mem_iff.2 (List.mem_cons_self _ _)
  have hsize : (net.add_link a b).2.size = net.size := by
    unfold size; rw [add_link_values]
  have h1 : ((net.add_link a b).2.add_link a b).1 = false := by
    cases h : ((net.add_link a b).2.add_link a b).1
    · rfl
    · obtain ⟨ha, hb, hab, hnb⟩ := (add_link_true_iff _ a b).1 h
      rw [hsize] at ha hb
      rw [mem_neighbors] at hnb
      exact absurd (hmem ⟨ha, hb, hab⟩) hnb
  have h2 : ((net.add_link a b).2.add_link b a).1 = false := by
    cases h : ((net.add_link a b).2.add_link b a).1
    · rfl
    · obtain ⟨hb, ha, hba, hna⟩ := (add_link_true_iff _ b a).1 h
      rw [hsize] at ha hb
      rw [mem_neighbors, ← link_count_pos_iff, ← hs a b, link_count_pos_iff] at hna
      exact absurd (hmem ⟨ha, hb, fun e => hba e.symm⟩) hna
  exact ⟨⟨h1, add_link_false_eq _ a b h1⟩, ⟨h2, add_link_false_eq _ b a h2⟩⟩

theorem add_link_duplicate_order_independent_witness :
    Reachable sample_net ∧
    (((sample_net.add_link 0 3).2.add_link 0 3).1 = false ∧
      ((sample_net.add_link 0 3).2.add_link 0 3).2 = (sample_net.add_link 0 3).2) ∧
    (((sample_net.add_link 0 3).2.add_link 3 0).1 = false ∧
      ((sample_net.add_link 0 3).2.add_link 3 0).2 = (sample_net.add_link 0 3).2) :=
  ⟨sample_reachable, add_link_duplicate_order_independent.1 sample_net sample_reachable 0 3⟩

/-- C10: `random_connect` clears all previous links first. Two networks with the same
values and arbitrary links, run with the same mean and the same random draws, give
the same result (resulting network and returned count, or no return for both), and
that result is the one obtained from the network with no link at all: no previous
link survives unless the call creates it again. -/
theorem random_connect_clears_links (net net2 : Network) (mean_deg : Rat)
    (RNG : RandomNumbers) (h : net.values = net2.values) :
    net.random_connect mean_deg RNG = net2.random_connect mean_deg RNG ∧
    net.random_connect mean_deg RNG
      = random_connect { values := net.values, links := [] } mean_deg RNG := by
  unfold random_connect
  rw [h]
  exact ⟨rfl, rfl⟩

theorem random_connect_clears_links_witness :
    sample_start.values = sample_net.values ∧
    (sample_start.random_connect 1 sample_rng = sample_net.random_connect 1 sample_rng ∧
      sample_start.random_connect 1 sample_rng
        = random_connect { values := sample_start.values, links := [] } 1 sample_rng) :=
  ⟨by decide, random_connect_clears_links sample_start sample_net 1 sample_rng (by decide)⟩

/-! ## Small networks, resize, set_values, sorted_values -/

theorem clamp_degree_one (draw : Nat) : clamp_degree 1 draw = 0 := by
  simp only [clamp_degree, SIZE_T_RANGE, UINT_RANGE]
  norm_num

theorem node_loop_one (mean_deg : Rat) (poisson : Rat → Nat → Nat) (net : Network)
    (node : Nat) (us : List Nat) (h : net.values.length = 1) :
    node_loop mean_deg poisson net node 1 us = some (net, us) := by
  rw [node_loop, h, clamp_degree_one, link_loop]
  simp only [node_loop]

theorem resize_foldl (normal : Nat → Rat) (l : List Nat) (acc : List Rat) :
    l.foldl (fun vals i => vals ++ [normal i]) acc = acc ++ l.map normal := by
  induction l generalizing acc with
  | nil => simp
  | cons i rest ih => rw [List.foldl_cons, ih]; simp

/-- C13: on a network with `size() <= 1`, whatever the mean and the random source,
`random_connect` returns 0 and leaves no link, and the node loop uses no uniform draw
(the retry loop is never entered): with no node the loop body never runs, with one
node every draw is clamped to 0. -/
theorem random_connect_size_le_one (net : Network) (mean_deg : Rat) (RNG : RandomNumbers)
    (h : net.size ≤ 1) :
    net.random_connect mean_deg RNG = some (0, { net with links := [] }) ∧
    (∀ us : List Nat,
      node_loop mean_deg RNG.poisson { net with links := [] } 0 net.size us
        = some ({ net with links := [] }, us)) ∧
    (net.size = 1 → ∀ draw : Nat, clamp_degree net.size draw = 0) := by
  have hloop : ∀ us : List Nat,
      node_loop mean_deg RNG.poisson { net with links := [] } 0 net.values.length us
        = some ({ net with links := [] }, us) := by
    intro us
    have h2 : net.values.length = 0 ∨ net.values.length = 1 := by
      unfold size at h; omega
    rcases h2 with h0 | h1
    · rw [h0, node_loop]
    · rw [h1]
      exact node_loop_one mean_deg RNG.poisson _ 0 us h1
  refine ⟨?_, hloop, fun h1 draw => ?_⟩
  · unfold random_connect
    rw [hloop]
    simp
  · rw [h1]
    exact clamp_degree_one draw

theorem random_connect_size_le_one_witness :
    (Network.mk [5] [(0, 0), (3, 4)]).size ≤ 1 ∧
    ((Network.mk [5] [(0, 0), (3, 4)]).random_connect 2 sample_rng
        = some (0, { Network.mk [5] [(0, 0), (3, 4)] with links := [] }) ∧
    (∀ us : List Nat,
      node_loop 2 sample_rng.poisson { Network.mk [5] [(0, 0), (3, 4)] with links := [] } 0
          (Network.mk [5] [(0, 0), (3, 4)]).size us
        = some ({ Network.mk [5] [(0, 0), (3, 4)] with links := [] }, us)) ∧
    ((Network.mk [5] [(0, 0), (3, 4)]).size = 1 →
      ∀ draw : Nat, clamp_degree (Network.mk [5] [(0, 0), (3, 4)]).size draw = 0)) :=
  ⟨by decide, random_connect_size_le_one (Network.mk [5] [(0, 0), (3, 4)]) 2 sample_rng
    (by decide)⟩

/-- C15: after `resize(n)` the values are exactly the `n` freshly drawn samples in draw
order, whatever the old values were, so `size() == n`; the links are what they were. -/
theorem resize_values_links (net : Network) (n : Nat) (normal : Nat → Rat) :
    (net.resize n normal).values = (List.range n).map normal ∧
    (net.resize n normal).size = n ∧
    (net.resize n normal).links = net.links ∧
    (∀ net2 : Network, (net2.resize n normal).values = (net.resize n normal).values) := by
  have hv : ∀ m : Network, (m.resize n normal).values = (List.range n).map normal := by
    intro m
    unfold resize
    simp only [resize_foldl, List.nil_append]
  refine ⟨hv net, ?_, rfl, fun net2 => by rw [hv net2, hv net]⟩
  unfold size
  rw [hv net, List.length_map, List.length_range]

/-- C16: `set_values(v)` returns the length of `v`; afterwards `size()` is that length,
`value(i)` is `v[i]` for every `i` below it, the values are exactly `v` whatever they
were before, and the links are unchanged. -/
theorem set_values_spec (net : Network) (valeurs : List Rat) :
    (net.set_values valeurs).1 = valeurs.length ∧
    (net.set_values valeurs).2.size = valeurs.length ∧
    (∀ (i : Nat) (hi : i < valeurs.length),
      (net.set_values valeurs).2.value i = some (valeurs.get ⟨i, hi⟩)) ∧
    (net.set_values valeurs).2.values = valeurs ∧
    (net.set_values valeurs).2.links = net.links := by
  refine ⟨rfl, rfl, fun i hi => ?_, rfl, rfl⟩
  simp only [set_values, value]
  rw [List.getElem?_eq_getElem hi]
  rfl

theorem set_values_spec_witness :
    (1 : Nat) < [3, 1, 2].length ∧
    (sample_net.set_values [3, 1, 2]).2.value 1 = some 1 :=
  ⟨by decide, (set_values_spec sample_net [3, 1, 2]).2.2.1 1 (by decide)⟩

/-- C17: `sorted_values()` returns a permutation of the values (same elements with the
same multiplicities, same length) in non-increasing order; it is a const method working
on a copy, so the network is no part of its result. After `set_values([3, 1, 2])` it
returns `[3, 2, 1]`. -/
theorem sorted_values_perm_sorted (net : Network) :
    net.sorted_values.Perm net.values ∧
    net.sorted_values.length = net.values.length ∧
    net.sorted_values.Sorted (fun x y => x ≥ y) ∧
    (net.set_values [3, 1, 2]).2.sorted_values = [3, 2, 1] := by
  refine ⟨?_, ?_, ?_, ?_⟩
  · exact (List.reverse_perm _).trans (List.perm_insertionSort _ _)
  · unfold sorted_values
    rw [List.length_reverse, List.length_insertionSort]
  · unfold sorted_values List.Sorted
    rw [List.pairwise_reverse]
    exact List.sorted_insertionSort (fun x y : Rat => x ≤ y) net.values
  · simp only [set_values, sorted_values, List.insertionSort, List.orderedInsert]
    norm_num

/-! ## Simple graphs -/

theorem noSelfLink_add_link (net : Network) (a b : Nat) (hn : net.NoSelfLink) :
    (net.add_link a b).2.NoSelfLink := by
  cases h : (net.add_link a b).1
  · rw [add_link_false_eq net a b h]; exact hn
  · obtain ⟨_, _, hab, _⟩ := (add_link_true_iff net a b).1 h
    intro p hp
    have hp2 := (add_link_true_perm net a b h).mem_iff.1 hp
    simp only [List.mem_cons] at hp2
    rcases hp2 with rfl | rfl | hp3
    · exact hab
    · exact fun e => hab e.symm
    · exact hn p hp3

theorem simple_add_link (net : Network) (a b : Nat) (hs : net.Simple) :
    (net.add_link a b).2.Simple :=
  ⟨symmetric_add_link net a b hs.1, noDuplicate_add_link net a b hs.1 hs.2.1,
    noSelfLink_add_link net a b hs.2.2.1, inRange_add_link net a b hs.2.2.2⟩

theorem simple_cleared (valeurs : List Rat) : Simple { values := valeurs, links := [] } :=
  ⟨fun _ _ => rfl, fun _ _ => Nat.zero_le _, fun p hp => absurd hp (List.not_mem_nil p),
    fun p hp => absurd hp (List.not_mem_nil p)⟩

theorem nodup_neighbors (net : Network) (hd : net.NoDuplicate) (n : Nat) :
    (net.neighbors n).Nodup := by
  rw [List.nodup_iff_count_le_one]
  intro y
  have h1 := hd n y
  rw [link_count_eq_count] at h1
  have h2 : List.count y (net.neighbors n)
      = (net.neighbors n).countP (fun v => decide (v = y)) := by
    unfold List.count
    apply List.countP_congr
    intro v _
    simp
  rw [h2]
  exact h1

theorem neighbors_in_range (net : Network) (hs : net.Simple) (n y : Nat)
    (hy : y ∈ net.neighbors n) : n < net.size ∧ y < net.size ∧ y ≠ n := by
  rw [mem_neighbors] at hy
  have h1 := hs.2.2.2 (n, y) hy
  have h2 := hs.2.2.1 (n, y) hy
  exact ⟨h1.1, h1.2, fun e => h2 e.symm⟩

theorem nodup_length_le (l : List Nat) (hnd : l.Nodup) (t : Finset Nat)
    (hsub : ∀ y ∈ l, y ∈ t) : l.length ≤ t.card := by
  rw [← List.toFinset_card_of_nodup hnd]
  apply Finset.card_le_card
  intro y hy
  exact hsub y (List.mem_toFinset.1 hy)

theorem degree_le_of_simple (net : Network) (hs : net.Simple) (n : Nat) :
    net.degree n ≤ net.size - 1 := by
  rw [degree_eq_length]
  by_cases hn : n < net.size
  · have h1 := nodup_length_le (net.neighbors n) (nodup_neighbors net hs.2.1 n)
      ((Finset.range net.size).erase n) (fun y hy => by
        have h2 := neighbors_in_range net hs n y hy
        exact Finset.mem_erase.2 ⟨h2.2.2, Finset.mem_range.2 h2.2.1⟩)
    rw [Finset.card_erase_of_mem (Finset.mem_range.2 hn), Finset.card_range] at h1
    exact h1
  · have h0 : net.neighbors n = [] := by
      apply List.eq_nil_iff_forall_not_mem.2
      intro y hy
      exact hn (neighbors_in_range net hs n y hy).1
    rw [h0]
    exact Nat.zero_le _

theorem linkBuilt_values (valeurs : List Rat) (net : Network) (h : LinkBuilt valeurs net) :
    net.values = valeurs := by
  induction h with
  | cleared => rfl
  | add_link a b _ ih => rw [add_link_values]; exact ih

theorem linkBuilt_simple (valeurs : List Rat) (net : Network) (h : LinkBuilt valeurs net) :
    net.Simple := by
  induction h with
  | cleared => exact simple_cleared valeurs
  | add_link a b _ ih => exact simple_add_link _ a b ih

theorem reachable_noSelfLink (net : Network) (h : Reachable net) : net.NoSelfLink := by
  induction h with
  | start => exact fun p hp => absurd hp (List.not_mem_nil p)
  | resize n normal _ ih => exact ih
  | set_values valeurs _ ih => exact ih
  | add_link a b _ ih => exact noSelfLink_add_link _ a b ih
  | random_connect mean_deg RNG count _ hrun _ =>
    exact (random_connect_preserves NoSelfLink noSelfLink_add_link
      _ _ mean_deg RNG count (fun p hp => absurd hp (List.not_mem_nil p)) hrun).1

theorem resize_size (net : Network) (n : Nat) (normal : Nat → Rat) :
    (net.resize n normal).size = n := by
  unfold size resize
  simp only [resize_foldl, List.nil_append, List.length_map, List.length_range]

theorem inRange_of_size_le (net net2 : Network) (hl : net2.links = net.links)
    (hsize : net.size ≤ net2.size) (hr : net.InRange) : net2.InRange := by
  intro p hp
  rw [hl] at hp
  have h1 := hr p hp
  exact ⟨Nat.lt_of_lt_of_le h1.1 hsize, Nat.lt_of_lt_of_le h1.2 hsize⟩

theorem reachableGrowing_inRange (net : Network) (h : ReachableGrowing net) :
    net.InRange := by
  induction h with
  | start => exact fun p hp => absurd hp (List.not_mem_nil p)
  | @resize net0 n normal _ hle ih =>
    exact inRange_of_size_le net0 _ rfl (by rw [resize_size]; exact hle) ih
  | @set_values net0 valeurs _ hle ih => exact inRange_of_size_le net0 _ rfl hle ih
  | add_link a b _ ih => exact inRange_add_link _ a b ih
  | random_connect mean_deg RNG count _ hrun _ =>
    exact (random_connect_preserves InRange inRange_add_link
      _ _ mean_deg RNG count (fun p hp => absurd hp (List.not_mem_nil p)) hrun).1

theorem degree_zero_of_inRange (net : Network) (hr : net.InRange) (n : Nat)
    (hn : net.size ≤ n) : net.degree n = 0 := by
  unfold degree
  rw [List.countP_eq_zero]
  intro p hp
  have h1 := (hr p hp).1
  simp only [decide_eq_true_eq]
  omega

theorem star_net_built : LinkBuilt [0, 0, 0, 0] star_net :=
  LinkBuilt.add_link 0 3 (LinkBuilt.add_link 0 2 (LinkBuilt.add_link 0 1 LinkBuilt.cleared))

theorem stale_net_reachable : Reachable stale_net :=
  Reachable.set_values [] (Reachable.add_link 0 1 (Reachable.resize 2 (fun _ => 0)
    Reachable.start))

theorem sample_growing : ReachableGrowing sample_net :=
  ReachableGrowing.random_connect 1 sample_rng 4
    (ReachableGrowing.add_link 2 3 (ReachableGrowing.add_link 0 1
      (ReachableGrowing.resize 4 (fun _ => 0) ReachableGrowing.start (by decide))))
    sample_run

/-! ## The claims, continued -/

/-- C12, as stated, fails: after `resize(2)`, `add_link(0,1)`, `set_values([])` the state
is reachable, index 0 is out of range (`size()` is 0) and `degree(0)` is 1. -/
theorem degree_out_of_range_counterexample :
    ¬ (∀ net : Network, Reachable net → ∀ n : Nat, net.size ≤ n → net.degree n = 0) := by
  intro hall
  have h := hall stale_net stale_net_reachable 0 (by decide)
  exact absurd h (by decide)

/-- C12, amended: in every state reachable from the empty network by the public
operations in which `resize` and `set_values` never left fewer nodes than there were,
`degree(n)` is 0 for every out-of-range index `n >= size()`. -/
theorem degree_out_of_range_zero (net : Network) (h : ReachableGrowing net) (n : Nat)
    (hn : net.size ≤ n) : net.degree n = 0 :=
  degree_zero_of_inRange net (reachableGrowing_inRange net h) n hn

theorem degree_out_of_range_zero_witness :
    ReachableGrowing sample_net ∧ sample_net.size ≤ 4 ∧ sample_net.degree 4 = 0 :=
  ⟨sample_growing, by decide, degree_out_of_range_zero sample_net sample_growing 4 (by decide)⟩

/-- C14: no self-link is an invariant of every state reachable from the empty network by
`resize`, `set_values`, `add_link` and `random_connect`: `links` holds no entry `(n, n)`
and `n` is not in `neighbors(n)`. In every state `add_link(a, a)` returns false and
leaves the network unchanged. -/
theorem reachable_no_self_link :
    (∀ net : Network, Reachable net →
      ∀ n : Nat, (n, n) ∉ net.links ∧ n ∉ net.neighbors n) ∧
    (∀ (net : Network) (a : Nat),
      (net.add_link a a).1 = false ∧ (net.add_link a a).2 = net ∧
        (net.add_link a a).2.links = net.links) := by
  refine ⟨fun net hreach n => ?_, fun net a => ?_⟩
  · have hn : (n, n) ∉ net.links := fun hmem => reachable_noSelfLink net hreach (n, n) hmem rfl
    exact ⟨hn, fun hmem => hn ((mem_neighbors net n n).1 hmem)⟩
  · have hf : (net.add_link a a).1 = false := by
      cases h : (net.add_link a a).1
      · rfl
      · exact absurd rfl ((add_link_true_iff net a a).1 h).2.2.1
    have he := add_link_false_eq net a a hf
    exact ⟨hf, he, by rw [he]⟩

theorem reachable_no_self_link_witness :
    Reachable sample_net ∧ ((2, 2) ∉ sample_net.links ∧ 2 ∉ sample_net.neighbors 2) :=
  ⟨sample_reachable, reachable_no_self_link.1 sample_net sample_reachable 2⟩

/-- C19: whenever `random_connect` returns, every endpoint of every entry of the
resulting links is a valid node index (`< size()`), and every node `n` has
`degree(n) <= size()-1`. -/
theorem random_connect_links_valid (net net1 : Network) (mean_deg : Rat)
    (RNG : RandomNumbers) (count : Nat)
    (h : net.random_connect mean_deg RNG = some (count, net1)) :
    (∀ p ∈ net1.links, p.1 < net1.size ∧ p.2 < net1.size) ∧
    (∀ n : Nat, net1.degree n ≤ net1.size - 1) := by
  have hs := (random_connect_preserves Simple simple_add_link net net1 mean_deg RNG count
    (simple_cleared net.values) h).1
  exact ⟨hs.2.2.2, degree_le_of_simple net1 hs⟩

theorem random_connect_links_valid_witness :
    sample_start.random_connect 1 sample_rng = some (4, sample_net) ∧
    ((∀ p ∈ sample_net.links, p.1 < sample_net.size ∧ p.2 < sample_net.size) ∧
      (∀ n : Nat, sample_net.degree n ≤ sample_net.size - 1)) :=
  ⟨sample_run, random_connect_links_valid sample_start sample_net 1 sample_rng 4 sample_run⟩

/-- C20: in every state built from empty links by calls of `add_link` on a fixed set of
`s` nodes, and for every node index `node < s`, some candidate `c` in `[0, s)` makes
`add_link(node, c)` return true exactly when `degree(node) < s-1`. -/
theorem retry_candidate_iff (valeurs : List Rat) (net : Network)
    (h : LinkBuilt valeurs net) (node : Nat) (hnode : node < valeurs.length) :
    (∃ c : Nat, c < valeurs.length ∧ (net.add_link node c).1 = true) ↔
      net.degree node < valeurs.length - 1 := by
  have hs := linkBuilt_simple valeurs net h
  have hsize : net.size = valeurs.length := by
    unfold size; rw [linkBuilt_values valeurs net h]
  have hnd := nodup_neighbors net hs.2.1 node
  rw [degree_eq_length]
  constructor
  · rintro ⟨c, hc, ht⟩
    obtain ⟨_, _, hne, hnb⟩ := (add_link_true_iff net node c).1 ht
    have hcmem : c ∈ (Finset.range valeurs.length).erase node :=
      Finset.mem_erase.2 ⟨fun e => hne e.symm, Finset.mem_range.2 hc⟩
    have h1 := nodup_length_le (net.neighbors node) hnd
      (((Finset.range valeurs.length).erase node).erase c) (fun y hy => by
        have h2 := neighbors_in_range net hs node y hy
        rw [hsize] at h2
        exact Finset.mem_erase.2 ⟨fun e => hnb (e ▸ hy),
          Finset.mem_erase.2 ⟨h2.2.2, Finset.mem_range.2 h2.2.1⟩⟩)
    rw [Finset.card_erase_of_mem hcmem,
      Finset.card_erase_of_mem (Finset.mem_range.2 hnode), Finset.card_range] at h1
    omega
  · intro hdeg
    by_contra hno
    have hsub : (Finset.range valeurs.length).erase node ⊆ (net.neighbors node).toFinset := by
      intro c hc
      obtain ⟨hcn, hcr⟩ := Finset.mem_erase.1 hc
      have hc2 := Finset.mem_range.1 hcr
      rw [List.mem_toFinset]
      by_contra hnb
      apply hno
      refine ⟨c, hc2, (add_link_true_iff net node c).2 ⟨?_, ?_, fun e => hcn e.symm, hnb⟩⟩
      · rw [hsize]; exact hnode
      · rw [hsize]; exact hc2
    have h1 := Finset.card_le_card hsub
    rw [Finset.card_erase_of_mem (Finset.mem_range.2 hnode), Finset.card_range,
      List.toFinset_card_of_nodup hnd] at h1
    omega

theorem retry_candidate_iff_witness :
    LinkBuilt [0, 0, 0, 0] star_net ∧ 1 < ([0, 0, 0, 0] : List Rat).length ∧
    ((∃ c : Nat, c < ([0, 0, 0, 0] : List Rat).length ∧ (star_net.add_link 1 c).1 = true) ↔
      star_net.degree 1 < ([0, 0, 0, 0] : List Rat).length - 1) ∧
    ((∃ c : Nat, c < ([0, 0, 0, 0] : List Rat).length ∧ (star_net.add_link 0 c).1 = true) ↔
      star_net.degree 0 < ([0, 0, 0, 0] : List Rat).length - 1) :=
  ⟨star_net_built, by decide, retry_candidate_iff [0, 0, 0, 0] star_net star_net_built 1
    (by decide), retry_candidate_iff [0, 0, 0, 0] star_net star_net_built 0 (by decide)⟩

/-! ## Number of entries made by random_connect -/

theorem clamp_degree_eq_min (size draw : Nat) (h1 : 1 ≤ size) (h2 : size < SIZE_T_RANGE) :
    clamp_degree size draw = min (draw % UINT_RANGE) (size - 1) := by
  unfold SIZE_T_RANGE at h2
  simp only [clamp_degree, SIZE_T_RANGE, UINT_RANGE]
  norm_num at h2 ⊢
  split_ifs <;> omega

theorem retry_link_effect (node : Nat) (us : List Nat) (net : Network)
    (res : Network × List Nat) (h : retry_link net node us = some res) :
    res.1.values = net.values ∧ res.1.links.length = net.links.length + 2 := by
  induction us with
  | nil => simp [retry_link] at h
  | cons noeu rest ih =>
    cases hb : (net.add_link node noeu).1
    · rw [retry_link_cons_false net node noeu rest hb] at h
      exact ih h
    · rw [retry_link_cons_true net node noeu rest hb] at h
      cases h
      exact ⟨add_link_values net node noeu, (add_link_true_perm net node noeu hb).length_eq⟩

theorem link_loop_effect (node nb : Nat) (us : List Nat) (net : Network)
    (res : Network × List Nat) (h : link_loop net node nb us = some res) :
    res.1.values = net.values ∧ res.1.links.length = net.links.length + 2 * nb := by
  induction nb generalizing net us with
  | zero =>
    simp only [link_loop] at h
    cases h
    exact ⟨rfl, rfl⟩
  | succ nb ih =>
    rw [link_loop] at h
    cases hr : retry_link net node us with
    | none => rw [hr] at h; simp at h
    | some r =>
      rw [hr] at h
      have h1 := retry_link_effect node us net r hr
      have h2 := ih r.2 r.1 h
      exact ⟨h2.1.trans h1.1, by rw [h2.2, h1.2]; omega⟩

theorem node_loop_effect (mean_deg : Rat) (poisson : Rat → Nat → Nat) (remaining : Nat)
    (node : Nat) (us : List Nat) (net : Network) (res : Network × List Nat)
    (h : node_loop mean_deg poisson net node remaining us = some res) :
    res.1.values = net.values ∧
    res.1.links.length = net.links.length + 2 * ((List.range remaining).map
      (fun i => clamp_degree net.values.length (poisson mean_deg (node + i)))).sum := by
  induction remaining generalizing net node us with
  | zero =>
    simp only [node_loop] at h
    cases h
    exact ⟨rfl, by simp⟩
  | succ remaining ih =>
    rw [node_loop] at h
    cases hr : link_loop net node (clamp_degree net.values.length (poisson mean_deg node)) us with
    | none => rw [hr] at h; simp at h
    | some r =>
      rw [hr] at h
      have h1 := link_loop_effect node _ us net r hr
      have h2 := ih (node + 1) r.2 r.1 h
      refine ⟨h2.1.trans h1.1, ?_⟩
      rw [h2.2, h1.2, h1.1, List.range_succ_eq_map, List.map_cons, List.sum_cons,
        List.map_map]
      have hf : ((fun i => clamp_degree net.values.length (poisson mean_deg (node + i)))
          ∘ Nat.succ) = (fun i => clamp_degree net.values.length
            (poisson mean_deg (node + 1 + i))) := by
        funext i
        simp only [Function.comp, Nat.succ_eq_add_one]
        rw [Nat.add_assoc, Nat.add_comm 1 i]
      rw [hf]
      simp only [Nat.add_zero]
      omega

theorem random_connect_count (net net1 : Network) (mean_deg : Rat) (RNG : RandomNumbers)
    (count : Nat) (h : net.random_connect mean_deg RNG = some (count, net1)) :
    count = ((List.range net.size).map
      (fun node => clamp_degree net.size (RNG.poisson mean_deg node))).sum ∧
    net1.links.length = 2 * count := by
  unfold random_connect at h
  cases hr : node_loop mean_deg RNG.poisson { net with links := [] } 0 net.values.length
      RNG.uniform_double with
  | none => rw [hr] at h; simp at h
  | some r =>
    rw [hr] at h
    simp only [Option.some.injEq, Prod.mk.injEq] at h
    obtain ⟨h1, h3⟩ := h
    have h2 := (node_loop_effect mean_deg RNG.poisson _ 0 _ _ r hr).2
    simp only [List.length_nil, Nat.zero_add] at h2
    have hc : count = ((List.range net.size).map
        (fun node => clamp_degree net.size (RNG.poisson mean_deg node))).sum := by
      rw [← h1, h2, Nat.mul_div_cancel_left _ (by decide : 0 < 2)]
      rfl
    refine ⟨hc, ?_⟩
    rw [← h3, h2, hc]
    rfl

theorem clamp_run : clamp_start.random_connect 1 clamp_rng = some (2, clamp_net) := by
  decide

/-- C18: the number of rounds of the retry loop run for a node is the clamped draw
`min(d_node, size()-1)`, `d_node` being the Poisson draw of the node as stored in the
`unsigned int`; the rounds of a node, once finished, have added exactly that many new
undirected edges (two entries each); and whenever `random_connect` returns, the
returned edge count is the sum of the clamped draws over the nodes `0..size()-1`, the
links holding two entries per counted edge. -/
theorem random_connect_count_sum_draws (net : Network) (mean_deg : Rat)
    (RNG : RandomNumbers) (hsize : net.size < SIZE_T_RANGE) :
    (∀ node : Nat, node < net.size →
      clamp_degree net.size (RNG.poisson mean_deg node)
        = min (RNG.poisson mean_deg node % UINT_RANGE) (net.size - 1)) ∧
    (∀ (cur : Network) (node : Nat) (us : List Nat) (res : Network × List Nat),
      cur.values = net.values → node < net.size →
      link_loop cur node (clamp_degree cur.values.length (RNG.poisson mean_deg node)) us
        = some res →
      res.1.links.length = cur.links.length
        + 2 * min (RNG.poisson mean_deg node % UINT_RANGE) (net.size - 1)) ∧
    (∀ (count : Nat) (net1 : Network),
      net.random_connect mean_deg RNG = some (count, net1) →
      count = ((List.range net.size).map
        (fun node => min (RNG.poisson mean_deg node % UINT_RANGE) (net.size - 1))).sum ∧
      net1.links.length = 2 * count) := by
  have hclamp : ∀ node : Nat, node < net.size →
      clamp_degree net.size (RNG.poisson mean_deg node)
        = min (RNG.poisson mean_deg node % UINT_RANGE) (net.size - 1) :=
    fun node hnode => clamp_degree_eq_min net.size _ (by omega) hsize
  refine ⟨hclamp, fun cur node us res hv hnode hrun => ?_, fun count net1 h => ?_⟩
  · have h1 := (link_loop_effect node _ us cur res hrun).2
    rw [h1, hv]
    have h2 := hclamp node hnode
    unfold size at h2
    rw [h2]
    rfl
  · have h1 := random_connect_count net net1 mean_deg RNG count h
    refine ⟨?_, h1.2⟩
    rw [h1.1]
    congr 1
    apply List.map_congr_left
    intro node hnode
    exact hclamp node (List.mem_range.1 hnode)

theorem random_connect_count_sum_draws_witness :
    clamp_start.size < SIZE_T_RANGE ∧
    (0 < clamp_start.size ∧ clamp_degree clamp_start.size 7 = 2 ∧
      clamp_degree clamp_start.size (clamp_rng.poisson 1 0)
        = min (clamp_rng.poisson 1 0 % UINT_RANGE) (clamp_start.size - 1)) ∧
    (clamp_start.random_connect 1 clamp_rng = some (2, clamp_net) ∧
      2 = ((List.range clamp_start.size).map
        (fun node => min (clamp_rng.poisson 1 node % UINT_RANGE) (clamp_start.size - 1))).sum ∧
      clamp_net.links.length = 2 * 2) :=
  ⟨by decide,
    ⟨by decide, by decide,
      (random_connect_count_sum_draws clamp_start 1 clamp_rng (by decide)).1 0 (by decide)⟩,
    ⟨clamp_run,
      (random_connect_count_sum_draws clamp_start 1 clamp_rng (by decide)).2.2 2 clamp_net
        clamp_run⟩⟩

end Network
